import Mathlib

/-!
# Verification of the rust-prometheus metric core

A shallow embedding of the metric value engine of the `rust-prometheus`
client library (counters, histogram core, local buffers, timers), with
theorems checking the natural-language specification against the code.

`f64` values are modelled by the type `F` below: a rational for every
finite double, together with the two infinities and a NaN, with IEEE-754
comparison and addition behaviour (finite-precision rounding is abstracted
to exact rational arithmetic; none of the verified properties depend on
rounding).  Machine counters (`u64` bucket cells) are modelled by `Nat`:
no verified property depends on wrap-around at `2^64`.
-/

/-- Model of `f64`: NaN, -∞, finite values (as rationals), +∞. -/
inductive F where
  | nan : F
  | ninf : F
  | fin : ℚ → F
  | inf : F
deriving DecidableEq

namespace F

/-- IEEE `<=` on doubles: any comparison with NaN is false. -/
def fle : F → F → Bool
  | nan, _ => false
  | _, nan => false
  | ninf, _ => true
  | _, inf => true
  | inf, ninf => false
  | inf, fin _ => false
  | fin _, ninf => false
  | fin a, fin b => decide (a ≤ b)

/-- IEEE `<` on doubles: any comparison with NaN is false. -/
def flt : F → F → Bool
  | nan, _ => false
  | _, nan => false
  | inf, _ => false
  | ninf, ninf => false
  | ninf, _ => true
  | fin _, inf => true
  | fin _, ninf => false
  | fin a, fin b => decide (a < b)

/-- IEEE `>=` on doubles (`a >= b` holds iff `b <= a`; false on NaN). -/
def fge (a b : F) : Bool := fle b a

/-- IEEE addition on doubles (rounding abstracted to exact rationals):
`NaN` absorbs, opposite infinities give `NaN`, an infinity absorbs finites. -/
def add : F → F → F
  | nan, _ => nan
  | _, nan => nan
  | inf, ninf => nan
  | ninf, inf => nan
  | inf, _ => inf
  | _, inf => inf
  | ninf, _ => ninf
  | _, ninf => ninf
  | fin a, fin b => fin (a + b)

/-- Source `f64::is_sign_positive`.  The sign chosen for `nan` and for `fin 0`
is irrelevant to every use in the source (it is always conjoined with
`is_infinite`). -/
def is_sign_positive : F → Bool
  | nan => true
  | ninf => false
  | inf => true
  | fin q => decide (0 ≤ q)

/-- Source `f64::is_infinite`. -/
def is_infinite : F → Bool
  | inf => true
  | ninf => true
  | _ => false

/-- A list of doubles without NaN (the spec speaks of ordered boundary
lists; NaN boundaries are an IEEE artefact outside its vocabulary). -/
def nanFree (l : List F) : Prop := F.nan ∉ l

instance : DecidablePred nanFree := fun l => by
  unfold nanFree; infer_instance

theorem add_fin_zero : ∀ x : F, add x (fin 0) = x
  | nan => rfl
  | ninf => rfl
  | inf => rfl
  | fin q => by simp [add]

theorem flt_irrefl : ∀ x : F, flt x x = false
  | nan => rfl
  | ninf => rfl
  | inf => rfl
  | fin q => by simp [flt]

/-- Source `a < b` (IEEE) implies `b <= a` is false. -/
theorem fle_eq_false_of_flt : ∀ {a b : F}, flt a b = true → fle b a = false := by
  intro a b h
  cases a <;> cases b <;> simp_all [flt, fle]

end F

/-- The error enumeration of `errors.rs` (the `Io` variant, which wraps a
foreign OS error, is omitted; no verified code path produces it). -/
inductive Error where
  | alreadyReg : Error
  | inconsistentCardinality : ℕ → ℕ → Error
  | msg : String → Error
  | decreaseCounter : ℚ → Error
deriving DecidableEq

/-- Source `DEFAULT_BUCKETS` from `histogram.rs`: the default 11-rung ladder
`[0.005, 0.01, 0.025, 0.05, 0.1, 0.25, 0.5, 1.0, 2.5, 5.0, 10.0]`. -/
def DEFAULT_BUCKETS : List F :=
  [F.fin (mkRat 5 1000), F.fin (mkRat 1 100), F.fin (mkRat 25 1000),
   F.fin (mkRat 5 100), F.fin (mkRat 1 10), F.fin (mkRat 25 100),
   F.fin (mkRat 5 10), F.fin 1, F.fin (mkRat 25 10), F.fin 5, F.fin 10]

/-- The adjacent-pair scan of `check_and_adjust_buckets`: `true` iff no
index `i` has `buckets[i] >= buckets[i+1]` in the IEEE sense. -/
def bucketsIncreasing : List F → Bool
  | [] => true
  | [_] => true
  | a :: b :: rest => !(F.fge a b) && bucketsIncreasing (b :: rest)

/-- Source `check_and_adjust_buckets` from `histogram.rs`: an empty list becomes
`DEFAULT_BUCKETS`; reject (with `Error::Msg`) any adjacent pair with
`buckets[i] >= buckets[i+1]`; then silently pop a trailing `+∞`. -/
def check_and_adjust_buckets (buckets0 : List F) : Except Error (List F) :=
  let buckets := if buckets0.isEmpty then DEFAULT_BUCKETS else buckets0
  if bucketsIncreasing buckets then
    let tail := buckets.getLastD (F.fin 0)
    if tail.is_sign_positive && tail.is_infinite then
      Except.ok buckets.dropLast
    else
      Except.ok buckets
  else
    Except.error (Error.msg "histogram buckets must be in increasing order")

/-- Mutable state of `HistogramCore` (`histogram.rs`): the per-bucket
`u64` cells, the running `u64` count and `f64` sum, and the immutable
upper bounds.  The descriptor and label pairs are not part of any
verified property about observation and export and are omitted. -/
structure HistogramCore where
  sum : F
  count : ℕ
  upper_bounds : List F
  counts : List ℕ
deriving DecidableEq

namespace HistogramCore

/-- The bucket search of `observe`:
`self.upper_bounds.iter().enumerate().filter(|&(_, f)| v <= *f).next()`,
i.e. the first (least) index whose bound satisfies `v <= f`. -/
def findBucket (v : F) : List F → Option ℕ
  | [] => none
  | f :: rest =>
    if F.fle v f then some 0 else (findBucket v rest).map (· + 1)

/-- Source `HistogramCore::observe`: increment the cell of the first bucket
whose upper bound satisfies `v <= f` (if any), then increment the total
count and add `v` to the sum. -/
def observe (h : HistogramCore) (v : F) : HistogramCore :=
  let counts :=
    match findBucket v h.upper_bounds with
    | some i => h.counts.set i (h.counts.getD i 0 + 1)
    | none => h.counts
  { h with
    counts := counts
    count := h.count + 1
    sum := F.add h.sum v }

/-- Source `HistogramCore::new` restricted to the state verified here: validate
and adjust the bucket list, then start every cell at zero. -/
def new (buckets : List F) : Except Error HistogramCore := do
  let ub ← check_and_adjust_buckets buckets
  Except.ok
    { sum := F.fin 0
      count := 0
      upper_bounds := ub
      counts := List.replicate ub.length 0 }

/-- Apply a sequence of observations in order. -/
def observeAll (h : HistogramCore) (vs : List F) : HistogramCore :=
  vs.foldl observe h

end HistogramCore

/-- The exported snapshot built by `HistogramCore::proto`: sample sum,
sample count, and one `(cumulative_count, upper_bound)` pair per bucket. -/
structure ProtoHistogram where
  sample_sum : F
  sample_count : ℕ
  bucket : List (ℕ × F)
deriving DecidableEq

/-- The running accumulator of `HistogramCore::proto`:
`count += self.counts[i]` pushed for each bucket in order. -/
def cumCounts (acc : ℕ) : List ℕ → List ℕ
  | [] => []
  | c :: cs => (acc + c) :: cumCounts (acc + c) cs

/-- Source `HistogramCore::proto`: snapshot the sum and count, and render the
buckets with cumulative counts computed by a running accumulator. -/
def HistogramCore.proto (h : HistogramCore) : ProtoHistogram :=
  { sample_sum := h.sum
    sample_count := h.count
    bucket := (cumCounts 0 h.counts).zip h.upper_bounds }

/-- Source `LocalHistogramCore` (`histogram.rs`): a plain, unsynchronized copy of
the accumulatable state, plus the handle to the shared histogram.  The
`histogram` field is the state of the shared `HistogramCore` the buffer
is bound to (the `Arc` indirection is flattened into explicit state
passing: operations return the updated shared state). -/
structure LocalHistogramCore where
  histogram : HistogramCore
  counts : List ℕ
  count : ℕ
  sum : F
deriving DecidableEq

namespace LocalHistogramCore

/-- Source `LocalHistogramCore::new`: a zeroed delta, one slot per shared bucket. -/
def new (histogram : HistogramCore) : LocalHistogramCore :=
  { histogram
    counts := List.replicate histogram.counts.length 0
    count := 0
    sum := F.fin 0 }

/-- Source `LocalHistogramCore::observe`: same first-bucket search against the
shared histogram's upper bounds, with plain (non-atomic) accumulation. -/
def observe (s : LocalHistogramCore) (v : F) : LocalHistogramCore :=
  let counts :=
    match HistogramCore.findBucket v s.histogram.upper_bounds with
    | some i => s.counts.set i (s.counts.getD i 0 + 1)
    | none => s.counts
  { s with
    counts := counts
    count := s.count + 1
    sum := F.add s.sum v }

/-- Source `LocalHistogramCore::clear`: zero every local cell. -/
def clear (s : LocalHistogramCore) : LocalHistogramCore :=
  { s with
    counts := s.counts.map (fun _ => 0)
    count := 0
    sum := F.fin 0 }

/-- Source `LocalHistogramCore::flush`: return early when `count == 0`;
otherwise add each positive local bucket count, the local count, and the
local sum into the shared histogram's cells, then `clear` the delta.
(Skipping local cells equal to `0` and adding them are the same shared
update, so the pointwise add is rendered by `zipWith`.) -/
def flush (s : LocalHistogramCore) : LocalHistogramCore :=
  if s.count = 0 then s
  else
    let h :=
      { s.histogram with
        counts := List.zipWith (· + ·) s.histogram.counts s.counts
        count := s.histogram.count + s.count
        sum := F.add s.histogram.sum s.sum }
    clear { s with histogram := h }

end LocalHistogramCore

/-- Source `Clone for LocalHistogram` (`histogram.rs`): clone the core (same
shared histogram handle, copied delta), then `clear` the clone. -/
def LocalHistogram.clone (s : LocalHistogramCore) : LocalHistogramCore :=
  LocalHistogramCore.clear s

/-- Source `Drop for LocalHistogram` (`histogram.rs`): dropping the buffer runs
`self.flush()`; the surviving state is the shared histogram. -/
def LocalHistogram.drop (s : LocalHistogramCore) : HistogramCore :=
  (LocalHistogramCore.flush s).histogram

/-- Source `GenericCounter` (`counter.rs`), reduced to its numeric cell: the
descriptor and label pairs take no part in the verified properties.  The
value type parameter covers both `AtomicF64` (`ℚ` here) and `AtomicI64`
(`ℤ`). -/
structure GenericCounter (α : Type) where
  val : α
deriving DecidableEq

/-- Source `GenericCounter::inc_by`: `debug_assert!(v >= 0)` then an atomic add.
A failed debug assertion is a panic, rendered as `none`. -/
def GenericCounter.inc_by [LinearOrderedRing α] (c : GenericCounter α) (v : α) :
    Option (GenericCounter α) :=
  if 0 ≤ v then some { val := c.val + v } else none

/-- Source `GenericLocalCounter` (`counter.rs`): the shared counter handle plus
the plain local delta `val`. -/
structure GenericLocalCounter (α : Type) where
  counter : GenericCounter α
  val : α
deriving DecidableEq

namespace GenericLocalCounter

/-- Source `GenericLocalCounter::new`: zero delta. -/
def new [LinearOrderedRing α] (counter : GenericCounter α) : GenericLocalCounter α :=
  { counter, val := 0 }

/-- Source `GenericLocalCounter::inc_by`: `debug_assert!(v >= 0)` then a plain
(non-atomic) add on the local delta; a failed assertion is `none`. -/
def inc_by [LinearOrderedRing α] (s : GenericLocalCounter α) (v : α) :
    Option (GenericLocalCounter α) :=
  if 0 ≤ v then some { s with val := s.val + v } else none

/-- Source `GenericLocalCounter::flush`: return early when the delta is zero;
otherwise `inc_by` the delta into the shared counter and zero the delta.
(The shared `inc_by`'s debug assertion cannot fire here: its argument is
the flushed delta, which the local `inc_by` keeps non-negative; the
direct add renders `self.counter.inc_by(self.val)`.) -/
def flush [LinearOrderedRing α] (s : GenericLocalCounter α) : GenericLocalCounter α :=
  if s.val = 0 then s
  else { counter := { val := s.counter.val + s.val }, val := 0 }

/-- Source `GenericLocalCounter` has no `Drop` implementation in `counter.rs`:
destruction runs no flush, so the shared counter survives unchanged and
the local delta is discarded. -/
def drop [LinearOrderedRing α] (s : GenericLocalCounter α) : GenericCounter α :=
  s.counter

end GenericLocalCounter

/-- A `proto::LabelPair`: one label name/value pair. -/
structure LabelPair where
  name : String
  value : String
deriving DecidableEq

/-- Byte-lexicographic comparison of strings as lists of characters
(the order Rust's derived `Ord` uses on `String`). -/
def strLeAux : List Char → List Char → Bool
  | [], _ => true
  | _ :: _, [] => false
  | a :: as, b :: bs =>
    if a.val < b.val then true
    else if b.val < a.val then false
    else strLeAux as bs

/-- Byte-lexicographic `<=` on strings. -/
def strLe (a b : String) : Bool := strLeAux a.data b.data

/-- The derived `Ord` on `proto::LabelPair` used by `label_pairs.sort()`:
compare names first, then values. -/
def LabelPair.le (p q : LabelPair) : Bool :=
  if p.name = q.name then strLe p.value q.value else strLe p.name q.name

/-- The descriptor fields of `Desc` that `value.rs` reads: the ordered
variable label names and the pre-built constant label pairs.  (`desc.rs`
is the construction-time collaborator; `Value::new` receives its output.) -/
structure Desc where
  variable_labels : List String
  const_label_pairs : List LabelPair
deriving DecidableEq

/-- Source `make_label_pairs` (`value.rs`): empty schema gives no pairs; no
variable labels gives the constant pairs; otherwise pair each variable
label name positionally with its supplied value, append the constant
pairs, and sort. -/
def make_label_pairs (desc : Desc) (label_values : List String) : List LabelPair :=
  if desc.variable_labels.length + desc.const_label_pairs.length = 0 then []
  else if desc.variable_labels.isEmpty then desc.const_label_pairs
  else
    let varPairs := (desc.variable_labels.zip label_values).map
      (fun p => LabelPair.mk p.1 p.2)
    List.insertionSort (fun a b => LabelPair.le a b = true)
      (varPairs ++ desc.const_label_pairs)

/-- Source `ValueType` (`value.rs`). -/
inductive ValueType where
  | counter : ValueType
  | gauge : ValueType
deriving DecidableEq

/-- Source `Value` (`value.rs`): descriptor, numeric cell, type tag and resolved
label pairs. -/
structure Value (α : Type) where
  desc : Desc
  val : α
  val_type : ValueType
  label_pairs : List LabelPair

/-- Source `Value::new` (`value.rs`): reject with `InconsistentCardinality`
when the supplied label values do not match the descriptor's variable
label count, else resolve the label pairs and build the cell. -/
def Value.new (desc : Desc) (value_type : ValueType) (val : α)
    (label_values : List String) : Except Error (Value α) :=
  if desc.variable_labels.length ≠ label_values.length then
    Except.error
      (Error.inconsistentCardinality desc.variable_labels.length label_values.length)
  else
    Except.ok
      { desc
        val
        val_type := value_type
        label_pairs := make_label_pairs desc label_values }

/-- An elapsed monotonic duration (`std::time::Duration`): whole seconds
and the sub-second nanoseconds. -/
structure Duration where
  secs : ℕ
  subsec_nanos : ℕ
deriving DecidableEq

/-- Source `duration_to_seconds` (`histogram.rs`): fractional seconds,
`d.as_secs() as f64 + f64::from(d.subsec_nanos()) / 1e9`. -/
def duration_to_seconds (d : Duration) : ℚ :=
  (d.secs : ℚ) + (d.subsec_nanos : ℚ) / 1000000000

/-- Source `HistogramTimer` (`histogram.rs`): a handle on the bound shared
histogram.  The captured start instant is real time; a run of the timer
is parameterized by the elapsed duration it measures. -/
structure HistogramTimer where
  histogram : HistogramCore

/-- The two ways a live `HistogramTimer`/`LocalHistogramTimer` value can
end: an explicit `observe_duration(self)` call (which consumes the
timer), or going out of scope.  Rust runs `Drop::drop` exactly once per
value, on whichever of the two happens. -/
inductive TimerPath where
  | explicitCall : TimerPath
  | scopeExit : TimerPath
deriving DecidableEq

namespace HistogramTimer

/-- Source `HistogramTimer::observe` (called from `Drop::drop`): observe the
elapsed time in fractional seconds into the bound histogram. -/
def observeElapsed (t : HistogramTimer) (elapsed : Duration) : HistogramCore :=
  t.histogram.observe (F.fin (duration_to_seconds elapsed))

/-- Source `Drop for HistogramTimer`: runs `self.observe()` once. -/
def dropTimer (t : HistogramTimer) (elapsed : Duration) : HistogramCore :=
  t.observeElapsed elapsed

/-- Source `HistogramTimer::observe_duration(self)`: its whole body is
`drop(self)`, which runs `Drop::drop`; the move makes any further call
on the timer impossible. -/
def observe_duration (t : HistogramTimer) (elapsed : Duration) : HistogramCore :=
  t.dropTimer elapsed

/-- The shared histogram state after a timer's life ends by the given
path.  Both paths run `Drop::drop` exactly once. -/
def run (p : TimerPath) (t : HistogramTimer) (elapsed : Duration) : HistogramCore :=
  match p with
  | TimerPath.explicitCall => t.observe_duration elapsed
  | TimerPath.scopeExit => t.dropTimer elapsed

end HistogramTimer

/-- Source `LocalHistogramTimer` (`histogram.rs`): a handle on the bound local
histogram buffer. -/
structure LocalHistogramTimer where
  local_histogram : LocalHistogramCore

namespace LocalHistogramTimer

/-- Source `LocalHistogramTimer::observe` (called from `Drop::drop`). -/
def observeElapsed (t : LocalHistogramTimer) (elapsed : Duration) : LocalHistogramCore :=
  t.local_histogram.observe (F.fin (duration_to_seconds elapsed))

/-- Source `Drop for LocalHistogramTimer`: runs `self.observe()` once. -/
def dropTimer (t : LocalHistogramTimer) (elapsed : Duration) : LocalHistogramCore :=
  t.observeElapsed elapsed

/-- Source `LocalHistogramTimer::observe_duration(self)`: body is `drop(self)`. -/
def observe_duration (t : LocalHistogramTimer) (elapsed : Duration) : LocalHistogramCore :=
  t.dropTimer elapsed

/-- The local buffer state after the timer's life ends by either path. -/
def run (p : TimerPath) (t : LocalHistogramTimer) (elapsed : Duration) :
    LocalHistogramCore :=
  match p with
  | TimerPath.explicitCall => t.observe_duration elapsed
  | TimerPath.scopeExit => t.dropTimer elapsed

end LocalHistogramTimer

/-- Modelled from the spec: the `Atomic` trait implementations
(`atomic64/fallback.rs` / `atomic64/nightly.rs`) are not part of the
provided sources — only the trait in `atomic64/mod.rs` is.  Per the
trait contract and spec §4.1, `inc_by` is an atomic read-modify-write
that adds the delta to the cell. -/
def Atomic.inc_by (cell : ℚ) (delta : ℚ) : ℚ := cell + delta

/-- Modelled from the spec: a complete concurrent execution of atomic
`inc_by` calls linearizes to some sequential order of the individual
read-modify-writes; an execution order is a list of deltas applied in
sequence, and any interleaving of the same calls is a permutation of it. -/
def Atomic.run (init : ℚ) (deltas : List ℚ) : ℚ :=
  deltas.foldl Atomic.inc_by init

/-- Source `Atomic::get`. -/
def Atomic.get (cell : ℚ) : ℚ := cell

section Lemmas

/-- Source `findBucket` only returns indices into the list, the returned bound
satisfies the predicate, and no earlier bound does. -/
theorem findBucket_some_spec (v : F) :
    ∀ (l : List F) (i : ℕ), HistogramCore.findBucket v l = some i →
      i < l.length ∧ F.fle v (l.getD i F.nan) = true ∧
        ∀ k, k < i → F.fle v (l.getD k F.nan) = false := by
  intro l
  induction l with
  | nil => intro i hi; simp [HistogramCore.findBucket] at hi
  | cons f rest ih =>
    intro i hi
    by_cases hf : F.fle v f = true
    · simp [HistogramCore.findBucket, hf] at hi
      subst hi
      exact ⟨Nat.succ_pos _, hf, fun k hk => absurd hk (Nat.not_lt_zero k)⟩
    · simp only [HistogramCore.findBucket, hf, if_neg, Bool.false_eq_true,
        if_false, Option.map_eq_some'] at hi
      obtain ⟨j, hj, rfl⟩ := hi
      obtain ⟨hjl, hjle, hjmin⟩ := ih j hj
      refine ⟨Nat.succ_lt_succ hjl, by simpa using hjle, ?_⟩
      intro k hk
      cases k with
      | zero => simpa using Bool.eq_false_iff.mpr hf
      | succ k' => simpa using hjmin k' (Nat.lt_of_succ_lt_succ hk)

/-- When `findBucket` finds nothing, no bound satisfies the predicate. -/
theorem findBucket_none_spec (v : F) :
    ∀ (l : List F), HistogramCore.findBucket v l = none →
      ∀ k, k < l.length → F.fle v (l.getD k F.nan) = false := by
  intro l
  induction l with
  | nil => intro _ k hk; simp at hk
  | cons f rest ih =>
    intro hn k hk
    by_cases hf : F.fle v f = true
    · simp [HistogramCore.findBucket, hf] at hn
    · simp only [HistogramCore.findBucket, hf, Bool.false_eq_true, if_false,
        Option.map_eq_none'] at hn
      cases k with
      | zero => simpa using Bool.eq_false_iff.mpr hf
      | succ k' => simpa using ih hn k' (Nat.lt_of_succ_lt_succ hk)

/-- Source `getD` after a `set` that increments one cell. -/
theorem getD_set_incr (l : List ℕ) (i j : ℕ) (hi : i < l.length) :
    (l.set i (l.getD i 0 + 1)).getD j 0 =
      l.getD j 0 + (if j = i then 1 else 0) := by
  by_cases hij : j = i
  · subst hij
    simp [List.getD_eq_getElem?_getD, List.getElem?_set, hi]
  · have hij' : ¬ i = j := fun hh => hij hh.symm
    simp [List.getD_eq_getElem?_getD, List.getElem?_set, hij, hij']

end Lemmas

/-- C1: `observe(v)` increments the total count by one, adds `v` to the
sum, and increments exactly the cell of the least bucket index `j` whose
upper bound satisfies `v <= b_j` — every other cell, and every cell when
no bound qualifies, is unchanged. -/
theorem observe_increments_least_bucket (h : HistogramCore) (v : F)
    (hlen : h.counts.length = h.upper_bounds.length) :
    (h.observe v).count = h.count + 1 ∧
    (h.observe v).sum = F.add h.sum v ∧
    (h.observe v).counts.length = h.counts.length ∧
    ∀ j, j < h.counts.length →
      (h.observe v).counts.getD j 0 =
        h.counts.getD j 0 +
          (if F.fle v (h.upper_bounds.getD j F.nan) = true ∧
              ∀ k, k < j → F.fle v (h.upper_bounds.getD k F.nan) = false
           then 1 else 0) := by
  refine ⟨rfl, rfl, ?_, ?_⟩
  · unfold HistogramCore.observe
    cases hb : HistogramCore.findBucket v h.upper_bounds <;>
      simp [List.length_set]
  · intro j hj
    unfold HistogramCore.observe
    cases hb : HistogramCore.findBucket v h.upper_bounds with
    | none =>
      have hnone := findBucket_none_spec v h.upper_bounds hb j (hlen ▸ hj)
      have hcond : ¬(F.fle v (h.upper_bounds.getD j F.nan) = true ∧
          ∀ k, k < j → F.fle v (h.upper_bounds.getD k F.nan) = false) := by
        intro hc
        rw [hnone] at hc
        exact Bool.false_ne_true hc.1
      simp only []
      rw [if_neg hcond, Nat.add_zero]
    | some i =>
      obtain ⟨hil, hile, himin⟩ := findBucket_some_spec v h.upper_bounds i hb
      have hic : i < h.counts.length := hlen ▸ hil
      have hcond : (F.fle v (h.upper_bounds.getD j F.nan) = true ∧
          ∀ k, k < j → F.fle v (h.upper_bounds.getD k F.nan) = false) ↔ j = i := by
        constructor
        · rintro ⟨hjle, hjmin⟩
          rcases Nat.lt_trichotomy j i with hlt | heq | hgt
          · rw [himin j hlt] at hjle
            exact absurd hjle Bool.false_ne_true
          · exact heq
          · rw [hjmin i hgt] at hile
            exact absurd hile Bool.false_ne_true
        · rintro rfl
          exact ⟨hile, himin⟩
      simp only []
      rw [getD_set_incr h.counts i j hic, if_congr hcond rfl rfl]

/-- A concrete histogram state with bounds 1 and 2 and zeroed cells. -/
def sampleHist : HistogramCore :=
  { sum := F.fin 0
    count := 0
    upper_bounds := [F.fin 1, F.fin 2]
    counts := [0, 0] }

/-- Witness for C1 at `sampleHist` and the observation `1.5`. -/
theorem observe_increments_least_bucket_witness :
    sampleHist.counts.length = sampleHist.upper_bounds.length ∧
    ((sampleHist.observe (F.fin (3/2))).count = sampleHist.count + 1 ∧
     (sampleHist.observe (F.fin (3/2))).sum = F.add sampleHist.sum (F.fin (3/2)) ∧
     (sampleHist.observe (F.fin (3/2))).counts.length = sampleHist.counts.length ∧
     ∀ j, j < sampleHist.counts.length →
       (sampleHist.observe (F.fin (3/2))).counts.getD j 0 =
         sampleHist.counts.getD j 0 +
           (if F.fle (F.fin (3/2)) (sampleHist.upper_bounds.getD j F.nan) = true ∧
               ∀ k, k < j →
                 F.fle (F.fin (3/2)) (sampleHist.upper_bounds.getD k F.nan) = false
            then 1 else 0)) :=
  ⟨rfl, observe_increments_least_bucket sampleHist (F.fin (3/2)) rfl⟩

section Lemmas

theorem cumCounts_length (cs : List ℕ) : ∀ acc, (cumCounts acc cs).length = cs.length := by
  induction cs with
  | nil => intro acc; rfl
  | cons c cs ih => intro acc; simp [cumCounts, ih]

/-- Element `i` of the running accumulator is the accumulator's base plus
the sum of the first `i + 1` raw counts. -/
theorem cumCounts_getD (cs : List ℕ) :
    ∀ acc i, i < cs.length →
      (cumCounts acc cs).getD i 0 = acc + (cs.take (i + 1)).sum := by
  induction cs with
  | nil => intro acc i hi; simp at hi
  | cons c cs ih =>
    intro acc i hi
    cases i with
    | zero => simp [cumCounts]
    | succ i' =>
      have := ih (acc + c) i' (Nat.lt_of_succ_lt_succ hi)
      simpa [cumCounts, Nat.add_assoc] using this

theorem sum_take_succ_ge (l : List ℕ) (j : ℕ) :
    (l.take j).sum ≤ (l.take (j + 1)).sum := by
  by_cases hj : j < l.length
  · rw [List.sum_take_succ l j hj]
    exact Nat.le_add_right _ _
  · rw [List.take_of_length_le (Nat.le_of_not_lt hj),
      List.take_of_length_le (Nat.le_of_not_lt (fun hc => hj (Nat.lt_of_succ_lt hc)))]

theorem sum_take_mono (l : List ℕ) {i j : ℕ} (hij : i ≤ j) :
    (l.take i).sum ≤ (l.take j).sum := by
  induction hij with
  | refl => exact Nat.le_refl _
  | step h ih => exact Nat.le_trans ih (sum_take_succ_ge l _)

theorem observe_preserve (h : HistogramCore) (v : F) :
    (h.observe v).upper_bounds = h.upper_bounds ∧
    (h.observe v).counts.length = h.counts.length ∧
    (h.observe v).count = h.count + 1 := by
  unfold HistogramCore.observe
  cases hb : HistogramCore.findBucket v h.upper_bounds <;> simp [List.length_set]

theorem observeAll_count (vs : List F) :
    ∀ h : HistogramCore, (h.observeAll vs).count = h.count + vs.length := by
  induction vs with
  | nil => intro h; simp [HistogramCore.observeAll]
  | cons v vs ih =>
    intro h
    have := ih (h.observe v)
    simp only [HistogramCore.observeAll, List.foldl_cons] at this ⊢
    rw [this, (observe_preserve h v).2.2]
    simp only [List.length_cons]
    omega

theorem observeAll_len (vs : List F) :
    ∀ h : HistogramCore, h.counts.length = h.upper_bounds.length →
      (h.observeAll vs).counts.length = (h.observeAll vs).upper_bounds.length := by
  induction vs with
  | nil => intro h hh; simpa [HistogramCore.observeAll] using hh
  | cons v vs ih =>
    intro h hh
    obtain ⟨hub, hlen, _⟩ := observe_preserve h v
    exact ih (h.observe v) (by rw [hub, hlen]; exact hh)

end Lemmas

/-- C2: export renders cumulative counts.  For every histogram state with
one cell per bound, the exported count list is the running accumulation of
the raw cells, so bucket `i` carries the sum of raw counts `0..=i` and the
exported counts are non-decreasing in the bucket index; and for every
histogram built by `new` the exported sample count (the implicit `+∞`
cumulative count) equals the number of observations made. -/
theorem proto_cumulative_export :
    (∀ h : HistogramCore, h.counts.length = h.upper_bounds.length →
      (h.proto).bucket.map Prod.fst = cumCounts 0 h.counts ∧
      (∀ i, i < h.counts.length →
        ((h.proto).bucket.map Prod.fst).getD i 0 = (h.counts.take (i + 1)).sum) ∧
      ∀ i j, i ≤ j → j < h.counts.length →
        ((h.proto).bucket.map Prod.fst).getD i 0 ≤
          ((h.proto).bucket.map Prod.fst).getD j 0) ∧
    (∀ bs h0 vs, HistogramCore.new bs = Except.ok h0 →
      ((h0.observeAll vs).proto).sample_count = vs.length) := by
  constructor
  · intro h hlen
    have hmap : (h.proto).bucket.map Prod.fst = cumCounts 0 h.counts := by
      show ((cumCounts 0 h.counts).zip h.upper_bounds).map Prod.fst = _
      exact List.map_fst_zip _ _ (by rw [cumCounts_length h.counts 0]; exact hlen.le)
    refine ⟨hmap, ?_, ?_⟩
    · intro i hi
      rw [hmap, cumCounts_getD h.counts 0 i hi, Nat.zero_add]
    · intro i j hij hj
      rw [hmap, cumCounts_getD h.counts 0 j hj,
        cumCounts_getD h.counts 0 i (Nat.lt_of_le_of_lt hij hj), Nat.zero_add,
        Nat.zero_add]
      exact sum_take_mono h.counts (Nat.succ_le_succ hij)
  · intro bs h0 vs hnew
    have hcount : h0.count = 0 := by
      unfold HistogramCore.new at hnew
      cases hc : check_and_adjust_buckets bs with
      | error e => rw [hc] at hnew; simp [Bind.bind, Except.bind] at hnew
      | ok ub =>
        rw [hc] at hnew
        simp only [Bind.bind, Except.bind, Except.ok.injEq] at hnew
        rw [← hnew]
    show ((h0.observeAll vs)).count = vs.length
    rw [observeAll_count vs h0, hcount, Nat.zero_add]

/-- Witness for C2 at `sampleHist` (for the state-indexed part) and at a
freshly built two-bucket histogram observing one value. -/
theorem proto_cumulative_export_witness :
    (sampleHist.counts.length = sampleHist.upper_bounds.length ∧
     (sampleHist.proto).bucket.map Prod.fst = cumCounts 0 sampleHist.counts ∧
     (∀ i, i < sampleHist.counts.length →
       ((sampleHist.proto).bucket.map Prod.fst).getD i 0 =
         (sampleHist.counts.take (i + 1)).sum) ∧
     ∀ i j, i ≤ j → j < sampleHist.counts.length →
       ((sampleHist.proto).bucket.map Prod.fst).getD i 0 ≤
         ((sampleHist.proto).bucket.map Prod.fst).getD j 0) ∧
    (HistogramCore.new [F.fin 1, F.fin 2] = Except.ok sampleHist ∧
     ((sampleHist.observeAll [F.fin (1/2), F.fin 5]).proto).sample_count = 2) := by
  refine ⟨⟨rfl, ?_⟩, ⟨by rfl, ?_⟩⟩
  · exact proto_cumulative_export.1 sampleHist rfl
  · exact proto_cumulative_export.2 [F.fin 1, F.fin 2] sampleHist
      [F.fin (1/2), F.fin 5] (by rfl)

/-- Decidable equality of `Except` results (not derived in core). -/
instance {e a : Type} [DecidableEq e] [DecidableEq a] : DecidableEq (Except e a) :=
  fun x y =>
  match x, y with
  | Except.error u, Except.error v =>
    if h : u = v then Decidable.isTrue (by rw [h])
    else Decidable.isFalse (fun hh => h (by cases hh; rfl))
  | Except.error _, Except.ok _ => Decidable.isFalse (fun hh => Except.noConfusion hh)
  | Except.ok _, Except.error _ => Decidable.isFalse (fun hh => Except.noConfusion hh)
  | Except.ok u, Except.ok v =>
    if h : u = v then Decidable.isTrue (by rw [h])
    else Decidable.isFalse (fun hh => h (by cases hh; rfl))

section Lemmas

/-- On non-NaN doubles the IEEE order is total: `b <= a` false gives
`a < b`. -/
theorem flt_of_fle_false {a b : F} (ha : a ≠ F.nan) (hb : b ≠ F.nan)
    (h : F.fle b a = false) : F.flt a b = true := by
  cases a <;> cases b <;> simp_all [F.fle, F.flt]

/-- A strictly increasing chain passes the adjacent-pair scan. -/
theorem bucketsIncreasing_of_chain :
    ∀ bs : List F, List.Chain' (fun a b => F.flt a b = true) bs →
      bucketsIncreasing bs = true := by
  intro bs
  induction bs with
  | nil => intro _; rfl
  | cons a rest ih =>
    intro hc
    cases rest with
    | nil => rfl
    | cons b rest' =>
      rw [List.chain'_cons] at hc
      simp only [bucketsIncreasing, Bool.and_eq_true, Bool.not_eq_true']
      exact ⟨F.fle_eq_false_of_flt hc.1, ih hc.2⟩

/-- On NaN-free lists, passing the adjacent-pair scan means the list is a
strictly increasing chain. -/
theorem chain_of_bucketsIncreasing :
    ∀ bs : List F, F.nanFree bs → bucketsIncreasing bs = true →
      List.Chain' (fun a b => F.flt a b = true) bs := by
  intro bs
  induction bs with
  | nil => intro _ _; exact List.chain'_nil
  | cons a rest ih =>
    intro hnf hinc
    cases rest with
    | nil => exact List.chain'_singleton a
    | cons b rest' =>
      simp only [bucketsIncreasing, Bool.and_eq_true, Bool.not_eq_true'] at hinc
      have hna : a ≠ F.nan := fun h => hnf (h ▸ List.mem_cons_self a _)
      have hnb : b ≠ F.nan := fun h =>
        hnf (List.mem_cons_of_mem a (h ▸ List.mem_cons_self b _))
      have hnf' : F.nanFree (b :: rest') := fun h => hnf (List.mem_cons_of_mem a h)
      rw [List.chain'_cons]
      exact ⟨flt_of_fle_false hna hnb hinc.1, ih hnf' hinc.2⟩

end Lemmas

/-- C3: bucket validation at construction.  The empty list succeeds and is
replaced by the default 11-rung ladder from `0.005` to `10.0`; a NaN-free
list that is not strictly increasing is rejected with the
invalid-bucket-configuration error (`Error::Msg`); a strictly increasing
list ending in `+∞` succeeds with the trailing `+∞` removed. -/
theorem check_and_adjust_buckets_spec :
    (check_and_adjust_buckets [] = Except.ok DEFAULT_BUCKETS ∧
     DEFAULT_BUCKETS.length = 11 ∧
     DEFAULT_BUCKETS.head? = some (F.fin (5 / 1000)) ∧
     DEFAULT_BUCKETS.getLast? = some (F.fin 10)) ∧
    (∀ bs : List F, F.nanFree bs →
      ¬ List.Chain' (fun a b => F.flt a b = true) bs →
      ∃ s, check_and_adjust_buckets bs = Except.error (Error.msg s)) ∧
    (∀ bs : List F, List.Chain' (fun a b => F.flt a b = true) bs →
      bs.getLast? = some F.inf →
      check_and_adjust_buckets bs = Except.ok bs.dropLast) := by
  refine ⟨⟨by decide, by rfl, ?_, by rfl⟩, ?_, ?_⟩
  · show some (F.fin (mkRat 5 1000)) = some (F.fin (5 / 1000))
    norm_num [Rat.mkRat_eq_div]
  · intro bs hnf hnc
    cases bs with
    | nil => exact absurd List.chain'_nil hnc
    | cons a rest =>
      have hinc : bucketsIncreasing (a :: rest) = false := by
        cases hb : bucketsIncreasing (a :: rest) with
        | false => rfl
        | true => exact absurd (chain_of_bucketsIncreasing _ hnf hb) hnc
      refine ⟨"histogram buckets must be in increasing order", ?_⟩
      unfold check_and_adjust_buckets
      simp [hinc]
  · intro bs hc hlast
    cases bs with
    | nil => simp at hlast
    | cons a rest =>
      have hinc := bucketsIncreasing_of_chain _ hc
      unfold check_and_adjust_buckets
      have hne : (a :: rest).isEmpty = false := rfl
      simp only [hne, Bool.false_eq_true, if_false, hinc, if_true]
      rw [List.getLastD_eq_getLast?, hlast]
      rfl

/-- Witness for C3: the misordered list `[2.0, 1.0]` is rejected; the
increasing list `[1.0, +∞]` is accepted with the `+∞` dropped. -/
theorem check_and_adjust_buckets_spec_witness :
    (F.nanFree [F.fin 2, F.fin 1] ∧
     ¬ List.Chain' (fun a b => F.flt a b = true) [F.fin 2, F.fin 1] ∧
     ∃ s, check_and_adjust_buckets [F.fin 2, F.fin 1] =
       Except.error (Error.msg s)) ∧
    (List.Chain' (fun a b => F.flt a b = true) [F.fin 1, F.inf] ∧
     check_and_adjust_buckets [F.fin 1, F.inf] = Except.ok [F.fin 1]) := by
  have hnotchain : ¬ List.Chain' (fun a b => F.flt a b = true) [F.fin 2, F.fin 1] := by
    intro hc
    rw [List.chain'_cons] at hc
    have h1 := hc.1
    norm_num [F.flt] at h1
  have hchain : List.Chain' (fun a b => F.flt a b = true) [F.fin 1, F.inf] := by
    rw [List.chain'_cons]
    exact ⟨rfl, List.chain'_singleton _⟩
  refine ⟨⟨by decide, hnotchain, ?_⟩, ⟨hchain, ?_⟩⟩
  · exact check_and_adjust_buckets_spec.2.1 [F.fin 2, F.fin 1] (by decide) hnotchain
  · exact check_and_adjust_buckets_spec.2.2 [F.fin 1, F.inf] hchain (by decide)

section Lemmas

/-- Adding a list of zeros pointwise changes nothing. -/
theorem zipWith_add_zeros :
    ∀ (l1 l2 : List ℕ), l1.length = l2.length → (∀ x ∈ l2, x = 0) →
      List.zipWith (· + ·) l1 l2 = l1 := by
  intro l1
  induction l1 with
  | nil => intro l2 _ _; rfl
  | cons a l1 ih =>
    intro l2 hlen hz
    cases l2 with
    | nil => simp at hlen
    | cons b l2 =>
      have hb : b = 0 := hz b (List.mem_cons_self b l2)
      have hrest : ∀ x ∈ l2, x = 0 := fun x hx => hz x (List.mem_cons_of_mem b hx)
      simp only [List.zipWith_cons_cons, hb, Nat.add_zero]
      rw [ih l2 (by simpa using hlen) hrest]

end Lemmas

/-- C4: `flush` drains the local delta into the shared instance and
zeroes the delta; a second `flush` with no intervening observations
leaves everything unchanged, and a `flush` of a zero delta does not touch
the shared instance, for both local counters and local histograms. -/
theorem flush_drains_and_is_idempotent :
    (∀ (α : Type) [inst : LinearOrderedRing α] (s : GenericLocalCounter α),
      (s.flush).counter.val = s.counter.val + s.val ∧
      (s.flush).val = 0 ∧
      s.flush.flush = s.flush ∧
      (s.val = 0 → s.flush = s)) ∧
    (∀ s : LocalHistogramCore,
      s.flush.flush = s.flush ∧
      (s.count = 0 → s.flush = s) ∧
      (s.histogram.counts.length = s.counts.length →
        (s.count = 0 → (∀ x ∈ s.counts, x = 0) ∧ s.sum = F.fin 0) →
        ((s.flush).histogram.counts = List.zipWith (· + ·) s.histogram.counts s.counts ∧
         (s.flush).histogram.count = s.histogram.count + s.count ∧
         (s.flush).histogram.sum = F.add s.histogram.sum s.sum ∧
         (s.flush).count = 0 ∧ (∀ x ∈ (s.flush).counts, x = 0) ∧
         (s.flush).sum = F.fin 0))) := by
  constructor
  · intro α inst s
    by_cases hv : s.val = 0
    · refine ⟨?_, ?_, ?_, fun _ => ?_⟩ <;>
        simp [GenericLocalCounter.flush, hv]
    · have h1 : s.flush = { counter := { val := s.counter.val + s.val }, val := 0 } := by
        simp [GenericLocalCounter.flush, hv]
      refine ⟨by rw [h1], by rw [h1], ?_, fun hz => absurd hz hv⟩
      rw [h1]
      simp [GenericLocalCounter.flush]
  · intro s
    by_cases hc : s.count = 0
    · have hid : s.flush = s := by simp [LocalHistogramCore.flush, hc]
      refine ⟨by rw [hid, hid], fun _ => hid, fun hlen hz => ?_⟩
      obtain ⟨hcz, hsz⟩ := hz hc
      rw [hid]
      exact ⟨(zipWith_add_zeros _ _ hlen hcz).symm,
        by rw [hc, Nat.add_zero],
        by rw [hsz, F.add_fin_zero],
        hc, hcz, hsz⟩
    · have h1 : s.flush =
          { histogram :=
              { s.histogram with
                counts := List.zipWith (· + ·) s.histogram.counts s.counts
                count := s.histogram.count + s.count
                sum := F.add s.histogram.sum s.sum }
            counts := s.counts.map (fun _ => 0)
            count := 0
            sum := F.fin 0 } := by
        simp [LocalHistogramCore.flush, hc, LocalHistogramCore.clear]
      refine ⟨?_, fun hz => absurd hz hc, fun _ _ => ?_⟩
      · rw [h1]
        simp [LocalHistogramCore.flush]
      · rw [h1]
        refine ⟨rfl, rfl, rfl, rfl, ?_, rfl⟩
        intro x hx
        rcases List.mem_map.mp hx with ⟨y, _, rfl⟩
        rfl

/-- A concrete local histogram buffer over `sampleHist` holding one
unflushed observation of value 2 (second bucket). -/
def sampleLocalHist : LocalHistogramCore :=
  { histogram := sampleHist
    counts := [0, 1]
    count := 1
    sum := F.fin 2 }

/-- Witness for C4 at a concrete local counter and `sampleLocalHist`. -/
theorem flush_drains_and_is_idempotent_witness :
    ((({ counter := { val := 5 }, val := 3 } : GenericLocalCounter ℚ).flush).counter.val =
        5 + 3 ∧
     (({ counter := { val := 5 }, val := 3 } : GenericLocalCounter ℚ).flush).val = 0) ∧
    (sampleLocalHist.histogram.counts.length = sampleLocalHist.counts.length ∧
     (sampleLocalHist.flush).histogram.counts =
       List.zipWith (· + ·) sampleLocalHist.histogram.counts sampleLocalHist.counts ∧
     (sampleLocalHist.flush).histogram.count =
       sampleLocalHist.histogram.count + sampleLocalHist.count ∧
     (sampleLocalHist.flush).count = 0) := by
  have hcnt := flush_drains_and_is_idempotent.1 ℚ
    { counter := { val := 5 }, val := 3 }
  have hh := (flush_drains_and_is_idempotent.2 sampleLocalHist).2.2 rfl
    (by intro h; cases h)
  exact ⟨⟨hcnt.1, hcnt.2.1⟩, rfl, hh.1, hh.2.1, hh.2.2.2.1⟩

/-- C5 counterexample: a local counter holding an unflushed delta of 1 is
destroyed; since `counter.rs` implements no `Drop` for
`GenericLocalCounter`, destruction leaves the shared counter at 0 while an
explicit `flush` would have published 1 — the delta is silently lost, so
destruction does not flush every local buffer type. -/
theorem local_counter_drop_loses_delta :
    ({ counter := { val := 0 }, val := 1 } : GenericLocalCounter ℚ).val = 1 ∧
    (GenericLocalCounter.drop
      ({ counter := { val := 0 }, val := 1 } : GenericLocalCounter ℚ)).val = 0 ∧
    (({ counter := { val := 0 }, val := 1 } :
        GenericLocalCounter ℚ).flush).counter.val = 1 ∧
    (0 : ℚ) ≠ 1 := by
  refine ⟨rfl, rfl, ?_, by norm_num⟩
  simp [GenericLocalCounter.flush]

/-- C5 (amended): destruction of a `LocalHistogram` flushes the delta
into the shared histogram (the nonzero delta is published); destruction
of a `GenericLocalCounter` runs no flush — the shared counter survives
unchanged and the unflushed delta is discarded. -/
theorem drop_flush_behavior :
    (∀ s : LocalHistogramCore,
      LocalHistogram.drop s = (s.flush).histogram ∧
      (s.count ≠ 0 →
        (LocalHistogram.drop s).counts =
          List.zipWith (· + ·) s.histogram.counts s.counts ∧
        (LocalHistogram.drop s).count = s.histogram.count + s.count ∧
        (LocalHistogram.drop s).sum = F.add s.histogram.sum s.sum)) ∧
    (∀ (α : Type) [inst : LinearOrderedRing α] (s : GenericLocalCounter α),
      GenericLocalCounter.drop s = s.counter) := by
  constructor
  · intro s
    refine ⟨rfl, fun hc => ?_⟩
    have h1 : s.flush =
        { histogram :=
            { s.histogram with
              counts := List.zipWith (· + ·) s.histogram.counts s.counts
              count := s.histogram.count + s.count
              sum := F.add s.histogram.sum s.sum }
          counts := s.counts.map (fun _ => 0)
          count := 0
          sum := F.fin 0 } := by
      simp [LocalHistogramCore.flush, hc, LocalHistogramCore.clear]
    unfold LocalHistogram.drop
    rw [h1]
    exact ⟨rfl, rfl, rfl⟩
  · intro α inst s
    rfl

/-- Witness for C5's amended theorem at `sampleLocalHist` (delta count 1)
and at a concrete rational local counter. -/
theorem drop_flush_behavior_witness :
    (sampleLocalHist.count ≠ 0 ∧
     (LocalHistogram.drop sampleLocalHist).counts =
       List.zipWith (· + ·) sampleLocalHist.histogram.counts sampleLocalHist.counts ∧
     (LocalHistogram.drop sampleLocalHist).count =
       sampleLocalHist.histogram.count + sampleLocalHist.count ∧
     (LocalHistogram.drop sampleLocalHist).sum =
       F.add sampleLocalHist.histogram.sum sampleLocalHist.sum) ∧
    GenericLocalCounter.drop
      ({ counter := { val := 7 }, val := 2 } : GenericLocalCounter ℚ) =
      { val := 7 } := by
  refine ⟨⟨by decide, ?_⟩, ?_⟩
  · exact (drop_flush_behavior.1 sampleLocalHist).2 (by decide)
  · exact drop_flush_behavior.2 ℚ { counter := { val := 7 }, val := 2 }

/-- C6: `inc_by(v)` with `v >= 0` passes the debug assertion and adds `v`
to the stored value, on shared counters and on local counter buffers; a
negative `v` fails the assertion (a panic, not a recoverable error).  No
decrement operation is defined on either counter type. -/
theorem counter_inc_by_contract :
    ∀ (α : Type) [inst : LinearOrderedRing α]
      (c : GenericCounter α) (s : GenericLocalCounter α) (v : α),
      (0 ≤ v →
        c.inc_by v = some { val := c.val + v } ∧
        s.inc_by v = some { s with val := s.val + v }) ∧
      (v < 0 → c.inc_by v = none ∧ s.inc_by v = none) := by
  intro α inst c s v
  constructor
  · intro hv
    constructor <;> simp [GenericCounter.inc_by, GenericLocalCounter.inc_by, hv]
  · intro hv
    have hnot : ¬ (0 ≤ v) := not_le_of_lt hv
    constructor <;> simp [GenericCounter.inc_by, GenericLocalCounter.inc_by, hnot]

/-- Witness for C6 over `ℚ` at `v = 2` (accepted) and `v = -1`
(assertion failure). -/
theorem counter_inc_by_contract_witness :
    ((0 : ℚ) ≤ 2 ∧
     ({ val := 5 } : GenericCounter ℚ).inc_by 2 = some { val := 5 + 2 } ∧
     ({ counter := { val := 5 }, val := 1 } : GenericLocalCounter ℚ).inc_by 2 =
       some { counter := { val := 5 }, val := 1 + 2 }) ∧
    ((-1 : ℚ) < 0 ∧
     ({ val := 5 } : GenericCounter ℚ).inc_by (-1) = none ∧
     ({ counter := { val := 5 }, val := 1 } : GenericLocalCounter ℚ).inc_by (-1) =
       none) := by
  have h2 := counter_inc_by_contract ℚ { val := 5 }
    { counter := { val := 5 }, val := 1 } 2
  have hm := counter_inc_by_contract ℚ { val := 5 }
    { counter := { val := 5 }, val := 1 } (-1)
  refine ⟨⟨by norm_num, ?_, ?_⟩, ⟨by norm_num, ?_, ?_⟩⟩
  · exact (h2.1 (by norm_num)).1
  · exact (h2.1 (by norm_num)).2
  · exact (hm.2 (by norm_num)).1
  · exact (hm.2 (by norm_num)).2

/-- C7: `Value::new` fails with the cardinality error exactly when the
number of supplied label values differs from the descriptor's variable
label count; with equal counts it succeeds and its resolved label pairs
contain each variable label name paired positionally with its value. -/
theorem value_new_cardinality :
    ∀ (α : Type) (desc : Desc) (t : ValueType) (v : α) (vals : List String),
      (desc.variable_labels.length ≠ vals.length →
        Value.new desc t v vals =
          Except.error
            (Error.inconsistentCardinality desc.variable_labels.length vals.length)) ∧
      (desc.variable_labels.length = vals.length →
        ∃ w : Value α, Value.new desc t v vals = Except.ok w ∧
          w.label_pairs = make_label_pairs desc vals ∧
          ∀ i, i < desc.variable_labels.length →
            LabelPair.mk (desc.variable_labels.getD i "") (vals.getD i "") ∈
              w.label_pairs) := by
  intro α desc t v vals
  constructor
  · intro hne
    simp [Value.new, hne]
  · intro heq
    refine ⟨{ desc := desc, val := v, val_type := t,
              label_pairs := make_label_pairs desc vals },
      by simp [Value.new, heq], rfl, ?_⟩
    intro i hi
    have hiv : i < vals.length := heq ▸ hi
    have hzlen : i < (desc.variable_labels.zip vals).length := by
      rw [List.length_zip]
      omega
    have hmemzip : (desc.variable_labels.getD i "", vals.getD i "") ∈
        desc.variable_labels.zip vals := by
      rw [List.getD_eq_getElem _ _ hi, List.getD_eq_getElem _ _ hiv]
      exact List.getElem_zip ▸ List.getElem_mem hzlen
    have hvarne : ¬ desc.variable_labels.isEmpty = true := by
      cases hv : desc.variable_labels with
      | nil => rw [hv] at hi; simp at hi
      | cons a l => simp
    have htot : ¬ (desc.variable_labels.length + desc.const_label_pairs.length = 0) := by
      intro h
      omega
    unfold make_label_pairs
    rw [if_neg htot, if_neg hvarne]
    apply (List.perm_insertionSort (fun a b => LabelPair.le a b = true) _).mem_iff.mpr
    apply List.mem_append_left
    exact List.mem_map.mpr ⟨_, hmemzip, rfl⟩

/-- Witness for C7: a two-label descriptor rejects one value and accepts
two, pairing them positionally. -/
theorem value_new_cardinality_witness :
    (({ variable_labels := ["m", "c"], const_label_pairs := [] } : Desc
       ).variable_labels.length ≠ ["GET"].length ∧
     Value.new { variable_labels := ["m", "c"], const_label_pairs := [] }
       ValueType.counter (0 : ℚ) ["GET"] =
       Except.error (Error.inconsistentCardinality 2 1)) ∧
    (({ variable_labels := ["m", "c"], const_label_pairs := [] } : Desc
       ).variable_labels.length = ["GET", "200"].length ∧
     ∃ w : Value ℚ,
       Value.new { variable_labels := ["m", "c"], const_label_pairs := [] }
         ValueType.counter (0 : ℚ) ["GET", "200"] = Except.ok w ∧
       w.label_pairs =
         make_label_pairs { variable_labels := ["m", "c"], const_label_pairs := [] }
           ["GET", "200"] ∧
       ∀ i, i < ({ variable_labels := ["m", "c"], const_label_pairs := [] } : Desc
           ).variable_labels.length →
         LabelPair.mk
             (({ variable_labels := ["m", "c"], const_label_pairs := [] } : Desc
               ).variable_labels.getD i "") (["GET", "200"].getD i "") ∈
           w.label_pairs) := by
  have h1 := value_new_cardinality ℚ
    { variable_labels := ["m", "c"], const_label_pairs := [] }
    ValueType.counter 0 ["GET"]
  have h2 := value_new_cardinality ℚ
    { variable_labels := ["m", "c"], const_label_pairs := [] }
    ValueType.counter 0 ["GET", "200"]
  exact ⟨⟨by decide, h1.1 (by decide)⟩, ⟨by decide, h2.2 (by decide)⟩⟩

/-- C8: a timer feeds exactly one elapsed-duration observation to its
sink: on both ways a timer's life can end — explicit `observe_duration`
(which consumes the timer) or scope exit running `Drop` — the bound
histogram (or local buffer) receives the single observation
`duration_to_seconds(elapsed)` and its observation count grows by
exactly one; the two paths are the only ones and coincide. -/
theorem timer_observes_exactly_once :
    ∀ (p : TimerPath) (t : HistogramTimer) (lt : LocalHistogramTimer) (e : Duration),
      HistogramTimer.run p t e =
        t.histogram.observe (F.fin (duration_to_seconds e)) ∧
      (HistogramTimer.run p t e).count = t.histogram.count + 1 ∧
      LocalHistogramTimer.run p lt e =
        lt.local_histogram.observe (F.fin (duration_to_seconds e)) ∧
      (LocalHistogramTimer.run p lt e).count = lt.local_histogram.count + 1 := by
  intro p t lt e
  cases p <;> exact ⟨rfl, rfl, rfl, rfl⟩

/-- C9: atomic increments are never lost: for any multiset of
non-negative deltas and any interleaving (modelled as a permutation of
the linearized order of the atomic read-modify-writes), the final value
read from a fresh cell is the sum of all deltas. -/
theorem atomic_increments_never_lost :
    ∀ (ds order : List ℚ), ds.Perm order → (∀ d ∈ ds, 0 ≤ d) →
      Atomic.get (Atomic.run 0 order) = ds.sum := by
  have hrun : ∀ (l : List ℚ) (init : ℚ), Atomic.run init l = init + l.sum := by
    intro l
    induction l with
    | nil => intro init; simp [Atomic.run]
    | cons d l ih =>
      intro init
      show Atomic.run (Atomic.inc_by init d) l = _
      rw [ih (Atomic.inc_by init d), List.sum_cons]
      show init + d + l.sum = init + (d + l.sum)
      ring
  intro ds order hperm _
  show Atomic.run 0 order = ds.sum
  rw [hrun order 0, hperm.sum_eq]
  ring

/-- Witness for C9: deltas `[1, 2]` interleaved as `[2, 1]` still sum
to 3. -/
theorem atomic_increments_never_lost_witness :
    ([(1 : ℚ), 2].Perm [2, 1] ∧ (∀ d ∈ [(1 : ℚ), 2], 0 ≤ d)) ∧
    Atomic.get (Atomic.run 0 [2, 1]) = [(1 : ℚ), 2].sum := by
  have hperm : [(1 : ℚ), 2].Perm [2, 1] := List.Perm.swap 2 1 []
  have hpos : ∀ d ∈ [(1 : ℚ), 2], 0 ≤ d := by
    intro d hd
    rcases List.mem_cons.mp hd with rfl | hd
    · norm_num
    · rcases List.mem_cons.mp hd with rfl | hd
      · norm_num
      · simp at hd
  exact ⟨⟨hperm, hpos⟩, atomic_increments_never_lost [1, 2] [2, 1] hperm hpos⟩

/-- C10: cloning a local histogram buffer binds the clone to the same
shared histogram but zeroes the clone's delta (per-bucket counts, count
and sum), so an unflushed delta in the original is not duplicated. -/
theorem local_histogram_clone_zeroed :
    ∀ s : LocalHistogramCore,
      (LocalHistogram.clone s).histogram = s.histogram ∧
      (∀ x ∈ (LocalHistogram.clone s).counts, x = 0) ∧
      (LocalHistogram.clone s).counts.length = s.counts.length ∧
      (LocalHistogram.clone s).count = 0 ∧
      (LocalHistogram.clone s).sum = F.fin 0 := by
  intro s
  refine ⟨rfl, ?_, ?_, rfl, rfl⟩
  · intro x hx
    rcases List.mem_map.mp hx with ⟨y, _, rfl⟩
    rfl
  · exact List.length_map s.counts _
